import Mathlib

/-!
Verification of the client-side search-and-highlight engine of the document
platform.  The definitions below are a shallow embedding of the functions in
the search service source file (`normalize`, `splitIntoSentences`,
`matchByType`, `computeMatchInfo`, `highlightAll`, `highlightRanges`,
`highlightByType`, `searchDocuments`).  JS strings are modelled as `List Char`,
JS `toLowerCase` as per-character `Char.toLower`, and the Unicode character
classes of the regexes by their ASCII fragments.  Fallible external calls
(blob fetches) are modelled as `Option`-valued parameters.
-/

set_option maxHeartbeats 2000000
set_option maxRecDepth 100000

namespace SearchService

/-! ### Character classes used by the regexes -/

/-- The JS whitespace class used by both the sentence regex and `trim`. -/
def isWsChar (c : Char) : Bool :=
  c = ' ' || c = '\t' || c = '\n' || c = '\r' || c = '\x0b' || c = '\x0c' || c = '\xa0'

/-- ASCII fragment of the Unicode punctuation class appearing in the
    leading/trailing trim regexes of the source. -/
def isPunctChar (c : Char) : Bool :=
  c = '!' || c = '\x22' || c = '#' || c = '%' || c = '&' || c = '\x27' ||
  c = '(' || c = ')' || c = '*' || c = ',' || c = '-' || c = '.' || c = '/' ||
  c = ':' || c = ';' || c = '?' || c = '@' || c = '[' || c = '\\' || c = ']' ||
  c = '_' || c = '\x7b' || c = '\x7d'

/-- ASCII fragment of the letter/digit class used by the blank-query guard
    and the tokenizer. -/
def isAlnumChar (c : Char) : Bool :=
  c.isAlpha || c.isDigit

/-- Characters that terminate the sentence-body part of the sentence regex. -/
def isStopChar (c : Char) : Bool :=
  c = '.' || c = '!' || c = '?' || c = '\n'

/-- Terminal sentence punctuation. -/
def isTermChar (c : Char) : Bool :=
  c = '.' || c = '!' || c = '?'

/-! ### Basic string operations -/

/-- Lowercasing of a whole string, the `normalize` helper of the source. -/
def normalize (s : List Char) : List Char :=
  s.map Char.toLower

/-- JS `String.trim` on both ends. -/
def trimStr (s : List Char) : List Char :=
  ((s.dropWhile isWsChar).reverse.dropWhile isWsChar).reverse

/-- Case-sensitive prefix test: does the second list start with the first. -/
def hasPrefixCS : List Char → List Char → Bool
  | [], _ => true
  | _ :: _, [] => false
  | a :: as, b :: bs => a = b && hasPrefixCS as bs

/-- Case-insensitive prefix test (per-character lowercase comparison),
    the matching step of the case-insensitive regex replacement. -/
def prefixCI : List Char → List Char → Bool
  | [], _ => true
  | _ :: _, [] => false
  | a :: as, b :: bs => (a.toLower = b.toLower) && prefixCI as bs

/-- JS `String.includes` (case-sensitive). -/
def includesList (n : List Char) : List Char → Bool
  | [] => hasPrefixCS n []
  | c :: t => hasPrefixCS n (c :: t) || includesList n t

/-- Does the pattern occur case-insensitively somewhere in the text. -/
def occursCI (q : List Char) : List Char → Bool
  | [] => prefixCI q []
  | c :: t => prefixCI q (c :: t) || occursCI q t

/-- JS `String.indexOf`: index of the first (case-sensitive) occurrence. -/
def firstIndexCS (n : List Char) : List Char → Option Nat
  | [] => if hasPrefixCS n [] then some 0 else none
  | c :: t =>
    if hasPrefixCS n (c :: t) then some 0
    else (firstIndexCS n t).map (fun i => i + 1)

/-- JS `String.endsWith` (case-sensitive). -/
def endsWithList (n l : List Char) : Bool :=
  hasPrefixCS n.reverse l.reverse

/-- `replace(TRIM_START_PUNCT_RE, '')`: drop the leading run of
    punctuation/whitespace. -/
def ltrimPunct (s : List Char) : List Char :=
  s.dropWhile (fun c => isPunctChar c || isWsChar c)

/-- `replace(TRIM_END_PUNCT_RE, '')`: drop the trailing run of
    punctuation/whitespace. -/
def rtrimPunct (s : List Char) : List Char :=
  (s.reverse.dropWhile (fun c => isPunctChar c || isWsChar c)).reverse

/-! ### Sentence segmentation

The source splits with the global regex `([^.!?\n]+[.!?]*)(\s+|$)` in an
`exec` loop.  `sentMatchHere` decides whether the regex matches at the head
of the remaining input and, if so, returns the length of the captured
sentence and of the whole match (greedy quantifiers with the backtracking
order of the regex engine); `sentencesAux` is the `exec` loop, advancing one
character when the regex cannot match at the current position. -/

structure SSpan where
  text : List Char
  start : Nat
  stop : Nat
deriving DecidableEq, Repr

/-- Length of the maximal run of characters satisfying `p` at the head. -/
def runLen (p : Char → Bool) : List Char → Nat
  | [] => 0
  | c :: t => if p c then runLen p t + 1 else 0

/-- Backtracking for the sentence regex: the largest sentence-body length
    `a` strictly below the greedy one whose following character is
    whitespace; candidates are tried in decreasing order, body length 0 is
    not allowed. -/
def backtrackA (l : List Char) : Nat → Option Nat
  | 0 => none
  | a + 1 =>
    if a = 0 then none
    else
      match (l.drop a).head? with
      | some c => if isWsChar c then some a else backtrackA l a
      | none => backtrackA l a

/-- Greedy length of the sentence-body quantifier at the head of `l`. -/
def astarOf (l : List Char) : Nat :=
  runLen (fun c => !(isStopChar c)) l

/-- Greedy length of the terminal-punctuation quantifier after the body. -/
def bstarOf (l : List Char) : Nat :=
  runLen isTermChar (l.drop (astarOf l))

/-- Match of the sentence regex at the head of `l`: returns
    `(sentence length, full match length)` on success. -/
def sentMatchHere (l : List Char) : Option (Nat × Nat) :=
  if astarOf l = 0 then none
  else
    match (l.drop (astarOf l + bstarOf l)).head? with
    | none => some (astarOf l + bstarOf l, astarOf l + bstarOf l)
    | some c =>
      if isWsChar c then
        some (astarOf l + bstarOf l,
          astarOf l + bstarOf l + runLen isWsChar (l.drop (astarOf l + bstarOf l)))
      else
        match backtrackA l (astarOf l) with
        | some a => some (a, a + runLen isWsChar (l.drop a))
        | none => none

/-- The `exec` loop of sentence splitting, with explicit fuel (one unit per
    loop iteration suffices since every step consumes at least one
    character or advances the position). -/
def sentencesAux : Nat → List Char → Nat → List SSpan
  | 0, _, _ => []
  | _ + 1, [], _ => []
  | fuel + 1, c :: t, i =>
    match sentMatchHere (c :: t) with
    | some (slen, flen) =>
      ⟨(c :: t).take slen, i, i + slen⟩ ::
        sentencesAux fuel ((c :: t).drop flen) (i + flen)
    | none => sentencesAux fuel t (i + 1)

/-- `splitIntoSentences` of the source: run the regex loop, dropping nothing
    (whitespace-only captures cannot arise from this regex shape for the
    empty check, which the source performs; the trim check is modelled by
    the loop semantics), and fall back to the whole text as a single span
    when no span was produced and the text is non-empty. -/
def sentenceSpans (text : List Char) : List SSpan :=
  (sentencesAux text.length text 0).filter
    (fun s => !(s.text.dropWhile isWsChar).isEmpty)

def splitIntoSentences (text : List Char) : List SSpan :=
  if (sentenceSpans text).isEmpty && !text.isEmpty then
    [⟨text, 0, text.length⟩]
  else sentenceSpans text

/-! ### Match predicate and locator -/

inductive MatchType where
  | contains
  | startsWith
  | endsWith
deriving DecidableEq, Repr

/-- `matchByType` of the source. -/
def matchByType (haystack needle : List Char) (t : MatchType) : Bool :=
  if normalize needle = [] then false
  else
    match t with
    | .contains => includesList (normalize needle) (normalize haystack)
    | .startsWith =>
      (splitIntoSentences haystack).any
        (fun s => hasPrefixCS (normalize needle) (normalize (ltrimPunct s.text)))
    | .endsWith =>
      (splitIntoSentences haystack).any
        (fun s => endsWithList (normalize needle) (normalize (rtrimPunct s.text)))

/-- The highlight markers inserted by the renderer. -/
def markOpen : List Char := "<mark class=\x22search-highlight\x22>".toList

def markClose : List Char := "</mark>".toList

structure MatchInfo where
  index : Nat
  length : Nat
  matchPercent : Nat
  snippet : List Char
  highlightedSnippet : List Char
deriving DecidableEq, Repr

/-- The sentence-scanning loop of `computeMatchInfo` for the anchored
    modes: offset of the first qualifying sentence. -/
def anchoredIndex (lq : List Char) (qlen : Nat) (t : MatchType) :
    List SSpan → Option Nat
  | [] => none
  | s :: rest =>
    match t with
    | .startsWith =>
      if hasPrefixCS lq (normalize (ltrimPunct s.text)) then
        some (s.start + (s.text.length - (ltrimPunct s.text).length))
      else anchoredIndex lq qlen t rest
    | .endsWith =>
      if endsWithList lq (normalize (rtrimPunct s.text)) then
        some (s.start + (rtrimPunct s.text).length - qlen)
      else anchoredIndex lq qlen t rest
    | .contains => none

/-- Snippet construction of `computeMatchInfo` at a found offset: a context
    window of radius 220 clamped to the field bounds, a rounded
    match-position percentage, and the plain and highlighted snippets with
    ellipsis markers when the window was clamped. -/
def mkMatchInfo (text query : List Char) (idx : Nat) : MatchInfo :=
  let st := idx - 220
  let en := min text.length (idx + query.length + 220)
  let pre := (text.take idx).drop st
  let mid := (text.take (idx + query.length)).drop idx
  let suf := (text.take en).drop (idx + query.length)
  let pct := if text.length > 0 then (idx * 200 + text.length) / (2 * text.length) else 0
  let ellL := if st > 0 then ['…'] else []
  let ellR := if en < text.length then ['…'] else []
  ⟨idx, query.length, pct,
   ellL ++ pre ++ mid ++ suf ++ ellR,
   ellL ++ pre ++ markOpen ++ mid ++ markClose ++ suf ++ ellR⟩

/-- The first qualifying offset of `computeMatchInfo`: `indexOf` on the
    lowercased strings for `contains`, the sentence scan for the anchored
    modes. -/
def locateIndex (text query : List Char) : MatchType → Option Nat
  | .contains => firstIndexCS (normalize query) (normalize text)
  | .startsWith =>
    anchoredIndex (normalize query) query.length .startsWith
      (splitIntoSentences text)
  | .endsWith =>
    anchoredIndex (normalize query) query.length .endsWith
      (splitIntoSentences text)

/-- `computeMatchInfo` of the source. -/
def computeMatchInfo (text query : List Char) (t : MatchType) :
    Option MatchInfo :=
  if text.isEmpty || query.isEmpty then none
  else (locateIndex text query t).map (mkMatchInfo text query)

/-! ### Highlight renderer -/

/-- Fuelled scan of the global case-insensitive literal replacement; the
    fuel only serves structural recursion and one unit per consumed
    character suffices. -/
def replaceAllCIAux (q : List Char) : Nat → List Char → List Char
  | 0, l => l
  | _ + 1, [] => []
  | fuel + 1, c :: t =>
    if q ≠ [] ∧ prefixCI q (c :: t) = true then
      markOpen ++ (c :: t).take q.length ++ markClose ++
        replaceAllCIAux q fuel ((c :: t).drop q.length)
    else c :: replaceAllCIAux q fuel t

/-- Global case-insensitive literal replacement wrapping every occurrence of
    `q` in the highlight markers (the regex body of `highlightAll`; the
    query is regex-escaped in the source, so it matches literally). -/
def replaceAllCI (q l : List Char) : List Char :=
  replaceAllCIAux q l.length l

/-- `highlightAll` of the source. -/
def highlightAll (text query : List Char) : List Char :=
  if text.isEmpty || query.isEmpty then text else replaceAllCI query text

structure HRange where
  start : Nat
  stop : Nat
deriving DecidableEq, Repr

def rangeLE (a b : HRange) : Prop := a.start ≤ b.start

instance : DecidableRel rangeLE := fun a b => Nat.decLe a.start b.start

/-- JS `String.slice` with clamping. -/
def sliceL (l : List Char) (a b : Nat) : List Char :=
  (l.take b).drop a

/-- The emission loop of `highlightRanges`. -/
def emitRanges (text : List Char) : Nat → List HRange → List Char
  | last, [] => text.drop last
  | last, r :: rest =>
    sliceL text last r.start ++ markOpen ++ sliceL text r.start r.stop ++
      markClose ++ emitRanges text r.stop rest

/-- `highlightRanges` of the source: sort ranges by start offset (stable,
    as the JS sort), then wrap each range. -/
def highlightRanges (text : List Char) (ranges : List HRange) : List Char :=
  if ranges.isEmpty then text
  else emitRanges text 0 (ranges.insertionSort rangeLE)

/-- The per-sentence range computation of `highlightByType` for the
    anchored modes. -/
def sentenceRanges (lq : List Char) (t : MatchType) : List SSpan → List HRange
  | [] => []
  | s :: rest =>
    match t with
    | .startsWith =>
      if hasPrefixCS lq (normalize (ltrimPunct s.text)) then
        ⟨s.start + (s.text.length - (ltrimPunct s.text).length),
         s.start + (s.text.length - (ltrimPunct s.text).length) + lq.length⟩ ::
          sentenceRanges lq t rest
      else sentenceRanges lq t rest
    | .endsWith =>
      if endsWithList lq (normalize (rtrimPunct s.text)) then
        ⟨s.start + (rtrimPunct s.text).length - lq.length,
         s.start + (rtrimPunct s.text).length - lq.length + lq.length⟩ ::
          sentenceRanges lq t rest
      else sentenceRanges lq t rest
    | .contains => sentenceRanges lq t rest

/-- `highlightByType` of the source. -/
def highlightByType (text query : List Char) (t : MatchType) : List Char :=
  if text.isEmpty || query.isEmpty then text
  else
    match t with
    | .contains => highlightAll text query
    | .startsWith =>
      highlightRanges text
        (sentenceRanges (normalize query) .startsWith (splitIntoSentences text))
    | .endsWith =>
      highlightRanges text
        (sentenceRanges (normalize query) .endsWith (splitIntoSentences text))

/-- Fuelled scan deleting occurrences of `pat`. -/
def removeAllAux (pat : List Char) : Nat → List Char → List Char
  | 0, l => l
  | _ + 1, [] => []
  | fuel + 1, c :: t =>
    if pat ≠ [] ∧ hasPrefixCS pat (c :: t) = true then
      removeAllAux pat fuel ((c :: t).drop pat.length)
    else c :: removeAllAux pat fuel t

/-- One left-to-right pass deleting every occurrence of `pat` (JS global
    replacement by the empty string). -/
def removeAll (pat l : List Char) : List Char :=
  removeAllAux pat l.length l

/-- Delete all inserted highlight markers. -/
def stripMarks (l : List Char) : List Char :=
  removeAll markClose (removeAll markOpen l)

/-! ### Document records and the search orchestrator -/

structure Doc where
  id : Nat
  fileName : List Char
  author : List Char
  title : List Char
  textContent : List Char
  textContentStoragePath : List Char
  pageCount : Nat
deriving DecidableEq, Repr

inductive SearchField where
  | all
  | content
  | fileName
  | author
deriving DecidableEq, Repr

/-- Hydration of one record: when the record lacks inline text but carries a
    storage path, the blob fetch outcome (modelled by `fetchText`) fills the
    text; a failed fetch (`none`, the empty catch of the source) leaves the
    record unchanged. -/
def hydrateDoc (fetchText : List Char → Option (List Char)) (d : Doc) : Doc :=
  if d.textContent = [] ∧ d.textContentStoragePath ≠ [] then
    match fetchText d.textContentStoragePath with
    | some t =>
      Doc.mk d.id d.fileName d.author d.title t d.textContentStoragePath
        d.pageCount
    | none => d
  else d

/-- The per-record filter of `searchDocuments` for a given field scope. -/
def fieldMatchQ (q : List Char) (t : MatchType) (f : SearchField) (d : Doc) :
    Bool :=
  match f with
  | .fileName => matchByType d.fileName q t
  | .author => matchByType d.author q t
  | .content => matchByType d.textContent q t
  | .all =>
    matchByType d.textContent q t || matchByType d.fileName q t ||
      matchByType d.author q t || matchByType d.title q t

structure SearchResult where
  doc : Doc
  highlightedContent : Option (List Char)
  highlightedFullContent : Option (List Char)
  highlightedFileName : List Char
  highlightedAuthor : List Char
  matchIndex : Option Nat
  matchPercent : Option Nat
  estimatedPage : Option Nat
deriving DecidableEq, Repr

def ceilDiv (a b : Nat) : Nat := (a + b - 1) / b

/-- The enrichment step of `searchDocuments`: attach snippet, highlights and
    match metadata; records without a locatable content match only get
    fileName/author highlights. -/
def enrichDoc (q : List Char) (t : MatchType) (d : Doc) : SearchResult :=
  match computeMatchInfo d.textContent q t with
  | some info =>
    let estPage :=
      if d.pageCount ≠ 0 then
        some (min d.pageCount (max 1 (ceilDiv (info.matchPercent * d.pageCount) 100)))
      else none
    ⟨d, some info.highlightedSnippet, some (highlightByType d.textContent q t),
      highlightByType d.fileName q t, highlightByType d.author q t,
      some info.index, some info.matchPercent, estPage⟩
  | none =>
    ⟨d, none, none, highlightByType d.fileName q t,
      highlightByType d.author q t, none, none, none⟩

/-- The fallback of line 211 of the source: the ranked hits when there are
    any, the filtered candidates otherwise. -/
def orderedStep (ranked candidates : List Doc) : List Doc :=
  if ranked.isEmpty then candidates else ranked

/-- Hydration followed by the field filter. -/
def searchCandidates (fetchText : List Char → Option (List Char))
    (corpus : List Doc) (q : List Char) (t : MatchType) (f : SearchField) :
    List Doc :=
  (corpus.map (hydrateDoc fetchText)).filter (fieldMatchQ q t f)

/-- The ordered record list of `searchDocuments` before enrichment and
    truncation, including the blank-query guards. -/
def searchOrderedDocs (engine : List Doc → List Char → List Doc)
    (fetchText : List Char → Option (List Char)) (corpus : List Doc)
    (searchQuery : List Char) (t : MatchType) (f : SearchField) : List Doc :=
  if trimStr searchQuery = [] then []
  else if !((trimStr searchQuery).any isAlnumChar) then []
  else
    orderedStep
      (engine (searchCandidates fetchText corpus (trimStr searchQuery) t f)
        (trimStr searchQuery))
      (searchCandidates fetchText corpus (trimStr searchQuery) t f)

/-- `searchDocuments` of the source, with the corpus (the Firestore fetch),
    the per-record blob fetch outcomes, and the fuzzy ranking engine
    supplied as parameters. -/
def searchDocuments (engine : List Doc → List Char → List Doc)
    (fetchText : List Char → Option (List Char)) (corpus : List Doc)
    (searchQuery : List Char) (t : MatchType) (f : SearchField) :
    List SearchResult :=
  if trimStr searchQuery = [] then []
  else if !((trimStr searchQuery).any isAlnumChar) then []
  else
    ((searchOrderedDocs engine fetchText corpus searchQuery t f).map
      (enrichDoc (trimStr searchQuery) t)).take 100

def docA : Doc := ⟨0, "a.txt".toList, [], [], "alpha beta".toList, [], 0⟩

def docB : Doc := ⟨1, "b.txt".toList, [], [], "alpha gamma".toList, [], 0⟩

def docW : Doc := ⟨2, "b.txt".toList, [], [], [], "missing/path".toList, 0⟩

def mkDocA (i : Nat) : Doc := ⟨i, ['a'], ['a'], ['a'], ['a'], [], 0⟩

def corpus150 : List Doc := (List.range 150).map mkDocA

/-- Does a located match carry an in-bounds offset. -/
def matchInfoInBounds (text query : List Char) : Option MatchInfo → Bool
  | none => true
  | some info => decide (info.index + query.length ≤ text.length)

def glue : List (List Char × List Char) → List Char → List Char
  | [], t => t
  | (x, m) :: ps, t => x ++ markOpen ++ m ++ markClose ++ glue ps t

def glueNoOpen : List (List Char × List Char) → List Char → List Char
  | [], t => t
  | (x, m) :: ps, t => x ++ m ++ markClose ++ glueNoOpen ps t

def plainGlue : List (List Char × List Char) → List Char → List Char
  | [], t => t
  | (x, m) :: ps, t => x ++ m ++ plainGlue ps t

/-- Orderedness invariant of the sentence spans produced by the scanner:
    each span starts at or after the running index and the remaining spans
    start at or after its text end. -/
def SpChain : Nat → List SSpan → Prop
  | _, [] => True
  | i, s :: rest => i ≤ s.start ∧ SpChain (s.start + s.text.length) rest

/-- Orderedness of highlight ranges: sorted, disjoint, after the running
    offset. -/
def RChain : Nat → List HRange → Prop
  | _, [] => True
  | last, r :: rest => last ≤ r.start ∧ r.start ≤ r.stop ∧ RChain r.stop rest

/-- Modelled from the spec: the Fuse.js engine itself is an external
    dependency whose code is not part of this repository.  Per the spec the
    engine scores every candidate by weighted fuzzy similarity, its
    tolerance threshold rejects candidates, and the ranked hits are the
    accepted candidates ordered by score. -/
def fuseModel (score : Doc → Nat) (tol : Nat) (candidates : List Doc)
    (q : List Char) : List Doc :=
  (candidates.filter (fun d => score d ≤ tol)).insertionSort
    (fun a b => score a ≤ score b)

end SearchService

namespace SearchService

/-! ### Basic lemmas about the string operations -/

theorem normalize_nil_iff (s : List Char) : normalize s = [] ↔ s = [] := by
  simp [normalize]

theorem normalize_length (s : List Char) : (normalize s).length = s.length := by
  simp [normalize]

theorem hasPrefixCS_length {p l : List Char} (h : hasPrefixCS p l = true) :
    p.length ≤ l.length := by
  induction p generalizing l with
  | nil => simp
  | cons a as ih =>
    cases l with
    | nil => simp [hasPrefixCS] at h
    | cons b bs =>
      simp only [hasPrefixCS, Bool.and_eq_true] at h
      simpa using ih h.2

theorem hasPrefixCS_iff {p l : List Char} : hasPrefixCS p l = true ↔ p <+: l := by
  induction p generalizing l with
  | nil => simp [hasPrefixCS]
  | cons a as ih =>
    cases l with
    | nil =>
      simp [hasPrefixCS]
    | cons b bs =>
      simp only [hasPrefixCS, Bool.and_eq_true, decide_eq_true_eq]
      constructor
      · rintro ⟨rfl, h⟩
        obtain ⟨t, ht⟩ := ih.mp h
        exact ⟨t, by rw [List.cons_append, ht]⟩
      · intro h
        rcases h with ⟨t, ht⟩
        injection ht with h1 h2
        exact ⟨h1, ih.mpr ⟨t, h2⟩⟩

theorem includesList_iff {n l : List Char} : includesList n l = true ↔ n <:+: l := by
  induction l with
  | nil =>
    simp only [includesList]
    rw [hasPrefixCS_iff]
    constructor
    · intro h
      exact List.IsPrefix.isInfix h
    · intro h
      exact (List.infix_nil.mp h) ▸ List.prefix_rfl
  | cons c t ih =>
    simp only [includesList, Bool.or_eq_true, hasPrefixCS_iff, ih]
    exact (List.infix_cons_iff).symm

theorem endsWithList_length {n l : List Char} (h : endsWithList n l = true) :
    n.length ≤ l.length := by
  have := hasPrefixCS_length h
  simpa using this

theorem mem_trimStr {c : Char} {s : List Char} (h : c ∈ trimStr s) : c ∈ s := by
  unfold trimStr at h
  rw [List.mem_reverse] at h
  have h1 := (List.dropWhile_sublist (l := (s.dropWhile isWsChar).reverse)
    (p := isWsChar)).mem h
  rw [List.mem_reverse] at h1
  exact (List.dropWhile_sublist (l := s) (p := isWsChar)).mem h1

/-! ### Claim C2: empty-ranked fallback of the ordering step -/

/-- Claim C2: if the fuzzy engine returns zero ranked hits, the ranking step
    of `searchDocuments` yields the original filtered candidate list, and it
    never yields an empty list when the filtered set is non-empty. -/
theorem rankStep_fallback (ranked candidates : List Doc) :
    (ranked = [] → orderedStep ranked candidates = candidates) ∧
    (candidates ≠ [] → orderedStep ranked candidates ≠ []) := by
  constructor
  · intro h
    simp [orderedStep, h]
  · intro h
    unfold orderedStep
    by_cases hr : ranked.isEmpty
    · simpa [hr] using h
    · simpa [hr] using fun hc => hr (by simp [hc])

/-- Witness for C2 at a concrete input. -/
theorem rankStep_fallback_witness :
    orderedStep [] [docA] = [docA] ∧ orderedStep [] [docA] ≠ [] :=
  ⟨(rankStep_fallback [] [docA]).1 rfl,
   (rankStep_fallback [] [docA]).2 (by decide)⟩

end SearchService

namespace SearchService

/-! ### Claim C3: blank and punctuation-only queries -/

/-- Claim C3: for every corpus, mode and field scope, `searchDocuments`
    returns the empty sequence whenever the query is blank after trimming or
    contains no letter or digit. -/
theorem searchDocuments_blank_empty (engine : List Doc → List Char → List Doc)
    (fetchText : List Char → Option (List Char)) (corpus : List Doc)
    (query : List Char) (t : MatchType) (f : SearchField)
    (h : trimStr query = [] ∨ ∀ c ∈ query, isAlnumChar c = false) :
    searchDocuments engine fetchText corpus query t f = [] := by
  unfold searchDocuments
  rcases h with h | h
  · simp [h]
  · by_cases hq : trimStr query = []
    · simp [hq]
    · have hany : (trimStr query).any isAlnumChar = false := by
        rw [List.any_eq_false]
        intro c hc
        simp [h c (mem_trimStr hc)]
      simp [hq, hany]

/-- Witness for C3: a whitespace-only query on a non-empty corpus. -/
theorem searchDocuments_blank_empty_witness :
    searchDocuments (fun c _ => c) (fun _ => none) [docA] "   ".toList
      .contains .all = [] :=
  searchDocuments_blank_empty _ _ _ _ _ _ (Or.inl (by decide))

/-! ### Claim C4: the contains predicate and blank queries -/

/-- Counterexample to C4 as stated: a whitespace-only (blank but non-empty)
    query does match in `contains` mode, so the predicate is not equivalent
    to `q` non-blank together with lowercase containment. -/
theorem matchByType_blank_counterexample :
    ¬ (matchByType "a  b".toList "  ".toList .contains = true ↔
       (trimStr "  ".toList ≠ [] ∧
        includesList (normalize "  ".toList) (normalize "a  b".toList) = true)) := by
  decide

/-- Claim C4 (amended): `matchByType` in `contains` mode is true iff the
    query is non-EMPTY and the lowercased text contains the lowercased
    query as an infix; the empty query never matches in any mode (blank
    whitespace-only queries, however, can match). -/
theorem matchByType_contains_iff (t q : List Char) :
    (matchByType t q .contains = true ↔ q ≠ [] ∧ normalize q <:+: normalize t) ∧
    (∀ m, matchByType t [] m = false) := by
  constructor
  · by_cases hq : q = []
    · subst hq
      simp [matchByType, normalize]
    · have hn : ¬ normalize q = [] := fun hh => hq ((normalize_nil_iff q).mp hh)
      simp only [matchByType]
      rw [if_neg hn, includesList_iff]
      simp [hq]
  · intro m
    simp [matchByType, normalize]

/-! ### Claim C5: sentence-anchored endsWith ignores trailing punctuation -/

/-- Claim C5: any text whose sentence segmentation contains the sentence
    span "Goodbye now." matches the query "now" in `endsWith` mode: the
    trailing period is stripped before the case-insensitive suffix test. -/
theorem matchByType_endsWith_goodbye (text : List Char)
    (h : "Goodbye now.".toList ∈ (splitIntoSentences text).map SSpan.text) :
    matchByType text "now".toList .endsWith = true := by
  obtain ⟨s, hs, hst⟩ := List.mem_map.mp h
  have hn : ¬ normalize "now".toList = [] := by decide
  simp only [matchByType]
  rw [if_neg hn, List.any_eq_true]
  refine ⟨s, hs, ?_⟩
  rw [hst]
  decide

/-- Witness for C5 at a concrete text. -/
theorem matchByType_endsWith_goodbye_witness :
    matchByType "Hi. Goodbye now.".toList "now".toList .endsWith = true :=
  matchByType_endsWith_goodbye _ (by decide)

/-! ### Claim C1: the ranking step as a permutation -/

/-- Counterexample to C1 as stated: with the spec-modelled fuzzy engine
    (threshold rejection of scored candidates), the ranking step of
    `searchDocuments` can drop a candidate whose score exceeds the
    tolerance while keeping another, so its output is not a permutation of
    the candidate list. -/
theorem rankStep_perm_counterexample :
    ¬ (orderedStep (fuseModel (fun d => d.id * 80) 20 [docA, docB]
        "alpha".toList) [docA, docB]).Perm [docA, docB] := by
  decide

/-- Claim C1 (amended): the ranking step never invents records — every
    output record comes from the candidate list — and it is non-empty
    whenever the candidates are; it is a permutation of the candidates
    exactly in the all-or-nothing cases: when the engine returns no ranked
    hit (fallback) or ranks every candidate. -/
theorem rankStep_subset (ranked candidates : List Doc)
    (hsub : ∀ d ∈ ranked, d ∈ candidates) :
    (∀ d ∈ orderedStep ranked candidates, d ∈ candidates) ∧
    (candidates ≠ [] → orderedStep ranked candidates ≠ []) ∧
    ((ranked = [] ∨ ranked.Perm candidates) →
      (orderedStep ranked candidates).Perm candidates) := by
  refine ⟨?_, ?_, ?_⟩
  · intro d hd
    unfold orderedStep at hd
    by_cases hr : ranked.isEmpty
    · rwa [if_pos hr] at hd
    · rw [if_neg hr] at hd
      exact hsub d hd
  · intro h hc
    unfold orderedStep at hc
    by_cases hr : ranked.isEmpty
    · rw [if_pos hr] at hc
      exact h hc
    · rw [if_neg hr] at hc
      exact hr (by simp [hc])
  · rintro (rfl | hperm)
    · simp [orderedStep]
    · unfold orderedStep
      by_cases hr : ranked.isEmpty
      · rw [if_pos hr]
      · rw [if_neg hr]
        exact hperm

/-- Witness for C1 (amended) at a concrete input. -/
theorem rankStep_subset_witness :
    (∀ d ∈ orderedStep [docA] [docA, docB], d ∈ [docA, docB]) ∧
    ([docA, docB] ≠ [] → orderedStep [docA] [docA, docB] ≠ []) ∧
    (([docA] = [] ∨ [docA].Perm [docA, docB]) →
      (orderedStep [docA] [docA, docB]).Perm [docA, docB]) :=
  rankStep_subset [docA] [docA, docB] (by decide)

/-! ### Claim C7: hydration failure degrades, never drops -/

/-- Claim C7: when the blob fetch for a record fails, the record passes the
    hydration step unchanged, is still part of the corpus that the filter
    evaluates, and still reaches the candidate set whenever its inline
    fields satisfy the match predicate. -/
theorem hydrationFailure_degrades
    (fetchText : List Char → Option (List Char)) (corpus : List Doc)
    (q : List Char) (t : MatchType) (f : SearchField) (d : Doc)
    (hfail : fetchText d.textContentStoragePath = none) :
    hydrateDoc fetchText d = d ∧
    (d ∈ corpus → d ∈ corpus.map (hydrateDoc fetchText)) ∧
    (d ∈ corpus → fieldMatchQ q t f d = true →
      d ∈ searchCandidates fetchText corpus q t f) := by
  have h1 : hydrateDoc fetchText d = d := by
    by_cases hc : d.textContent = [] ∧ d.textContentStoragePath ≠ []
    · rw [hydrateDoc, if_pos hc, hfail]
    · rw [hydrateDoc, if_neg hc]
  refine ⟨h1, ?_, ?_⟩
  · intro hd
    exact List.mem_map.mpr ⟨d, hd, h1⟩
  · intro hd hmatch
    unfold searchCandidates
    exact List.mem_filter.mpr ⟨List.mem_map.mpr ⟨d, hd, h1⟩, hmatch⟩

/-- Witness for C7: the spec scenario of a record with empty inline text and
    an unreachable storage path, searched together with a healthy record. -/
theorem hydrationFailure_degrades_witness :
    hydrateDoc (fun _ => none) docW = docW ∧
    docW ∈ [docA, docW].map (hydrateDoc (fun _ => none)) ∧
    docW ∈ searchCandidates (fun _ => none) [docA, docW] "b".toList
      .contains .all :=
  ⟨(hydrationFailure_degrades (fun _ => none) [docA, docW] "b".toList
      .contains .all docW rfl).1,
   (hydrationFailure_degrades (fun _ => none) [docA, docW] "b".toList
      .contains .all docW rfl).2.1 (by decide),
   (hydrationFailure_degrades (fun _ => none) [docA, docW] "b".toList
      .contains .all docW rfl).2.2 (by decide) (by decide)⟩

end SearchService

namespace SearchService

/-! ### Claim C8: the result cap -/

/-- Claim C8 (amended): `searchDocuments` always returns at most 100
    results, and returns exactly 100 whenever the ordered record list that
    reaches the enrichment step has at least 100 records — in particular
    when the ranking engine keeps all of at least 100 matching records or
    rejects all of them.  (As stated, the claim fails: with the
    spec-modelled threshold engine, 150 matching records can produce fewer
    than 100 results when the engine ranks only some of them.) -/
theorem searchDocuments_cap (engine : List Doc → List Char → List Doc)
    (fetchText : List Char → Option (List Char)) (corpus : List Doc)
    (query : List Char) (t : MatchType) (f : SearchField) :
    (searchDocuments engine fetchText corpus query t f).length ≤ 100 ∧
    (100 ≤ (searchOrderedDocs engine fetchText corpus query t f).length →
      (searchDocuments engine fetchText corpus query t f).length = 100) := by
  constructor
  · unfold searchDocuments
    split_ifs
    · simp
    · simp
    · rw [List.length_take]
      exact Nat.min_le_left _ _
  · intro h
    unfold searchDocuments
    split_ifs with h1 h2
    · exfalso
      unfold searchOrderedDocs at h
      rw [if_pos h1] at h
      simp at h
    · exfalso
      unfold searchOrderedDocs at h
      rw [if_neg h1, if_pos h2] at h
      simp at h
    · rw [List.length_take, List.length_map]
      omega

/-- Counterexample to C8 as stated: a corpus of 150 records that all match
    the query, searched with the spec-modelled engine whose tolerance
    threshold keeps a single candidate: the search returns 1 result, not
    100. -/
theorem searchDocuments_cap_counterexample :
    (searchCandidates (fun _ => none) corpus150 ['a'] .contains .all).length
      = 150 ∧
    (searchDocuments (fuseModel (fun d => d.id) 0) (fun _ => none) corpus150
      ['a'] .contains .all).length ≠ 100 := by
  constructor
  · decide
  · decide

/-- Witness for C8 (amended): with an engine that ranks every candidate,
    the 150 matching records are truncated to exactly 100 results. -/
theorem searchDocuments_cap_witness :
    (searchDocuments (fun c _ => c) (fun _ => none) corpus150 ['a']
      .contains .all).length = 100 :=
  (searchDocuments_cap (fun c _ => c) (fun _ => none) corpus150 ['a']
    .contains .all).2 (by decide)

end SearchService

namespace SearchService

/-! ### Claim C6: the locator mirrors the predicate -/

theorem optionMap_isSome {α β : Type} (g : α → β) (o : Option α) :
    (o.map g).isSome = o.isSome := by
  cases o <;> rfl

theorem firstIndexCS_isSome (n l : List Char) :
    (firstIndexCS n l).isSome = includesList n l := by
  induction l with
  | nil =>
    by_cases h : hasPrefixCS n [] = true
    · simp [firstIndexCS, includesList, h]
    · simp [firstIndexCS, includesList, h]
  | cons c t ih =>
    by_cases h : hasPrefixCS n (c :: t) = true
    · simp [firstIndexCS, includesList, h]
    · simp [firstIndexCS, includesList, h, ih]

theorem firstIndexCS_bound {n : List Char} :
    ∀ {l : List Char} {i : Nat},
      firstIndexCS n l = some i → i + n.length ≤ l.length := by
  intro l
  induction l with
  | nil =>
    intro i h
    rw [firstIndexCS] at h
    by_cases hp : hasPrefixCS n [] = true
    · rw [if_pos hp] at h
      injection h with h
      subst h
      simpa using hasPrefixCS_length hp
    · rw [if_neg hp] at h
      cases h
  | cons c t ih =>
    intro i h
    rw [firstIndexCS] at h
    by_cases hp : hasPrefixCS n (c :: t) = true
    · rw [if_pos hp] at h
      injection h with h
      subst h
      simpa using hasPrefixCS_length hp
    · rw [if_neg hp] at h
      rcases Option.map_eq_some'.mp h with ⟨j, hj, rfl⟩
      have := ih hj
      simp only [List.length_cons]
      omega

theorem runLen_le (p : Char → Bool) : ∀ l : List Char, runLen p l ≤ l.length := by
  intro l
  induction l with
  | nil => simp [runLen]
  | cons c t ih =>
    rw [runLen]
    by_cases h : p c
    · simpa [h] using ih
    · simp [h]

theorem backtrackA_bounds (l : List Char) :
    ∀ (a b : Nat), backtrackA l a = some b → 1 ≤ b ∧ b < a := by
  intro a
  induction a with
  | zero =>
    intro b h
    cases h
  | succ a ih =>
    intro b h
    rw [backtrackA] at h
    by_cases ha : a = 0
    · rw [if_pos ha] at h
      cases h
    · rw [if_neg ha] at h
      cases hh : (l.drop a).head? with
      | some c =>
        rw [hh] at h
        dsimp only at h
        by_cases hw : isWsChar c = true
        · rw [if_pos hw] at h
          injection h with h
          subst h
          omega
        · rw [if_neg hw] at h
          have := ih b h
          omega
      | none =>
        rw [hh] at h
        dsimp only at h
        have := ih b h
        omega

theorem sentMatchHere_bounds {l : List Char} {s f : Nat}
    (h : sentMatchHere l = some (s, f)) :
    1 ≤ s ∧ s ≤ f ∧ f ≤ l.length := by
  have hA : astarOf l ≤ l.length := runLen_le _ l
  have hB : bstarOf l ≤ l.length - astarOf l := by
    simpa [bstarOf] using runLen_le isTermChar (l.drop (astarOf l))
  rw [sentMatchHere] at h
  by_cases h0 : astarOf l = 0
  · rw [if_pos h0] at h
    cases h
  · rw [if_neg h0] at h
    cases hh : (l.drop (astarOf l + bstarOf l)).head? with
    | none =>
      rw [hh] at h
      dsimp only at h
      cases h
      refine ⟨by omega, le_refl _, by omega⟩
    | some c =>
      rw [hh] at h
      dsimp only at h
      by_cases hw : isWsChar c = true
      · rw [if_pos hw] at h
        cases h
        have hW : runLen isWsChar (l.drop (astarOf l + bstarOf l)) ≤
            l.length - (astarOf l + bstarOf l) := by
          simpa using runLen_le isWsChar (l.drop (astarOf l + bstarOf l))
        refine ⟨by omega, by omega, by omega⟩
      · rw [if_neg hw] at h
        cases hb : backtrackA l (astarOf l) with
        | none =>
          rw [hb] at h
          cases h
        | some a =>
          rw [hb] at h
          have hab := backtrackA_bounds l _ _ hb
          have hW : runLen isWsChar (l.drop a) ≤ l.length - a := by
            simpa using runLen_le isWsChar (l.drop a)
          injection h with h2
          have hs : s = a := (congrArg Prod.fst h2).symm
          have hf : f = a + runLen isWsChar (l.drop a) :=
            (congrArg Prod.snd h2).symm
          subst hs
          subst hf
          refine ⟨by omega, by omega, by omega⟩

theorem sentencesAux_span_le :
    ∀ (fuel : Nat) (l : List Char) (i : Nat) (s : SSpan),
      s ∈ sentencesAux fuel l i → s.start + s.text.length ≤ i + l.length := by
  intro fuel
  induction fuel with
  | zero =>
    intro l i s h
    simp [sentencesAux] at h
  | succ fuel ih =>
    intro l i s h
    cases l with
    | nil => simp [sentencesAux] at h
    | cons c t =>
      rw [sentencesAux] at h
      cases hm : sentMatchHere (c :: t) with
      | none =>
        rw [hm] at h
        have := ih t (i + 1) s h
        simp only [List.length_cons]
        omega
      | some pr =>
        obtain ⟨slen, flen⟩ := pr
        rw [hm] at h
        rcases List.mem_cons.mp h with rfl | h2
        · simp only [List.length_take, List.length_cons]
          omega
        · have hb := sentMatchHere_bounds hm
          have h3 := ih _ _ s h2
          simp only [List.length_drop, List.length_cons] at h3 hb ⊢
          omega

theorem splitIntoSentences_span_le {text : List Char} {s : SSpan}
    (h : s ∈ splitIntoSentences text) :
    s.start + s.text.length ≤ text.length := by
  unfold splitIntoSentences at h
  split at h
  · rcases List.mem_singleton.mp h with rfl
    simp
  · have h2 := (List.mem_filter.mp h).1
    simpa using sentencesAux_span_le text.length text 0 s h2

theorem ltrimPunct_length_le (s : List Char) :
    (ltrimPunct s).length ≤ s.length :=
  (List.dropWhile_sublist _).length_le

theorem rtrimPunct_length_le (s : List Char) :
    (rtrimPunct s).length ≤ s.length := by
  unfold rtrimPunct
  calc (s.reverse.dropWhile (fun c => isPunctChar c || isWsChar c)).reverse.length
      = (s.reverse.dropWhile (fun c => isPunctChar c || isWsChar c)).length := by
        simp
    _ ≤ s.reverse.length := (List.dropWhile_sublist _).length_le
    _ = s.length := by simp

theorem anchoredIndex_isSome_startsWith (lq : List Char) (qlen : Nat) :
    ∀ spans : List SSpan,
      (anchoredIndex lq qlen .startsWith spans).isSome =
        spans.any (fun s => hasPrefixCS lq (normalize (ltrimPunct s.text))) := by
  intro spans
  induction spans with
  | nil => simp [anchoredIndex]
  | cons s rest ih =>
    by_cases hp : hasPrefixCS lq (normalize (ltrimPunct s.text)) = true
    · simp [anchoredIndex, hp]
    · simp [anchoredIndex, hp, ih]

theorem anchoredIndex_isSome_endsWith (lq : List Char) (qlen : Nat) :
    ∀ spans : List SSpan,
      (anchoredIndex lq qlen .endsWith spans).isSome =
        spans.any (fun s => endsWithList lq (normalize (rtrimPunct s.text))) := by
  intro spans
  induction spans with
  | nil => simp [anchoredIndex]
  | cons s rest ih =>
    by_cases hp : endsWithList lq (normalize (rtrimPunct s.text)) = true
    · simp [anchoredIndex, hp]
    · simp [anchoredIndex, hp, ih]

theorem anchoredIndex_bound {lq : List Char} {qlen : Nat} {t : MatchType}
    {L : Nat} :
    ∀ {spans : List SSpan} {i : Nat},
      anchoredIndex lq qlen t spans = some i →
      (∀ s ∈ spans, s.start + s.text.length ≤ L) →
      lq.length = qlen →
      i + qlen ≤ L := by
  intro spans
  induction spans with
  | nil =>
    intro i h _ _
    cases h
  | cons s rest ih =>
    intro i h hb hlen
    have hs : s.start + s.text.length ≤ L := hb s (List.mem_cons_self s rest)
    have hrest : ∀ x ∈ rest, x.start + x.text.length ≤ L :=
      fun x hx => hb x (List.mem_cons_of_mem s hx)
    cases t with
    | contains => cases h
    | startsWith =>
      rw [anchoredIndex] at h
      by_cases hp : hasPrefixCS lq (normalize (ltrimPunct s.text)) = true
      · rw [if_pos hp] at h
        injection h with h
        subst h
        have h1 : lq.length ≤ (ltrimPunct s.text).length := by
          have := hasPrefixCS_length hp
          simpa [normalize_length] using this
        have h2 := ltrimPunct_length_le s.text
        omega
      · rw [if_neg hp] at h
        exact ih h hrest hlen
    | endsWith =>
      rw [anchoredIndex] at h
      by_cases hp : endsWithList lq (normalize (rtrimPunct s.text)) = true
      · rw [if_pos hp] at h
        injection h with h
        subst h
        have h1 : lq.length ≤ (rtrimPunct s.text).length := by
          have := endsWithList_length hp
          simpa [normalize_length] using this
        have h2 := rtrimPunct_length_le s.text
        omega
      · rw [if_neg hp] at h
        exact ih h hrest hlen

theorem splitIntoSentences_nil : splitIntoSentences [] = [] := rfl

/-- Claim C6: for every text, query and mode, the Match Locator agrees with
    the Match Predicate — `computeMatchInfo` returns a located match exactly
    when `matchByType` returns true — and any located match offset is in
    bounds (`index + query length` within the text). -/
theorem computeMatchInfo_agrees (text query : List Char) (t : MatchType) :
    ((computeMatchInfo text query t).isSome = matchByType text query t) ∧
    matchInfoInBounds text query (computeMatchInfo text query t) = true := by
  by_cases hq : query = []
  · subst hq
    simp [computeMatchInfo, matchByType, matchInfoInBounds, normalize]
  · have hn : ¬ normalize query = [] :=
      fun hh => hq ((normalize_nil_iff query).mp hh)
    by_cases ht : text = []
    · subst ht
      have hinc : includesList (normalize query) (normalize []) = false := by
        cases hx : normalize query with
        | nil => exact absurd hx hn
        | cons a as => simp [normalize, includesList, hasPrefixCS]
      cases t with
      | contains =>
        simp [computeMatchInfo, matchByType, matchInfoInBounds, hn, hinc]
      | startsWith =>
        simp [computeMatchInfo, matchByType, matchInfoInBounds, hn,
          splitIntoSentences_nil]
      | endsWith =>
        simp [computeMatchInfo, matchByType, matchInfoInBounds, hn,
          splitIntoSentences_nil]
    · have hTi : text.isEmpty = false := by simpa using ht
      have hQi : query.isEmpty = false := by simpa using hq
      have hguard : ¬ ((text.isEmpty || query.isEmpty) = true) := by
        simp [hTi, hQi]
      have hspan : ∀ s ∈ splitIntoSentences text,
          s.start + s.text.length ≤ text.length :=
        fun s hs => splitIntoSentences_span_le hs
      cases t with
      | contains =>
        constructor
        · rw [computeMatchInfo, if_neg hguard, optionMap_isSome]
          simp only [locateIndex]
          rw [firstIndexCS_isSome]
          rw [matchByType, if_neg hn]
        · rw [computeMatchInfo, if_neg hguard]
          simp only [locateIndex]
          cases hfi : firstIndexCS (normalize query) (normalize text) with
          | none => simp [matchInfoInBounds, hfi]
          | some idx =>
            have hb := firstIndexCS_bound hfi
            rw [normalize_length, normalize_length] at hb
            simp [matchInfoInBounds, hfi, mkMatchInfo]
            omega
      | startsWith =>
        constructor
        · rw [computeMatchInfo, if_neg hguard, optionMap_isSome]
          simp only [locateIndex]
          rw [anchoredIndex_isSome_startsWith]
          rw [matchByType, if_neg hn]
        · rw [computeMatchInfo, if_neg hguard]
          simp only [locateIndex]
          cases hfi : anchoredIndex (normalize query) query.length .startsWith
              (splitIntoSentences text) with
          | none => simp [matchInfoInBounds, hfi]
          | some idx =>
            have hb := anchoredIndex_bound hfi hspan (normalize_length query)
            simp [matchInfoInBounds, hfi, mkMatchInfo]
            omega
      | endsWith =>
        constructor
        · rw [computeMatchInfo, if_neg hguard, optionMap_isSome]
          simp only [locateIndex]
          rw [anchoredIndex_isSome_endsWith]
          rw [matchByType, if_neg hn]
        · rw [computeMatchInfo, if_neg hguard]
          simp only [locateIndex]
          cases hfi : anchoredIndex (normalize query) query.length .endsWith
              (splitIntoSentences text) with
          | none => simp [matchInfoInBounds, hfi]
          | some idx =>
            have hb := anchoredIndex_bound hfi hspan (normalize_length query)
            simp [matchInfoInBounds, hfi, mkMatchInfo]
            omega

end SearchService

namespace SearchService

/-! ### Claim C9: highlightAll applied twice -/

theorem replaceAllCIAux_congr (q : List Char) :
    ∀ (f1 : Nat) (l : List Char) (f2 : Nat),
      l.length ≤ f1 → l.length ≤ f2 →
      replaceAllCIAux q f1 l = replaceAllCIAux q f2 l := by
  intro f1
  induction f1 with
  | zero =>
    intro l f2 h1 h2
    have hl : l = [] := List.eq_nil_of_length_eq_zero (Nat.le_zero.mp h1)
    subst hl
    cases f2 <;> rfl
  | succ f1 ih =>
    intro l f2 h1 h2
    cases l with
    | nil => cases f2 <;> rfl
    | cons c t =>
      cases f2 with
      | zero => simp at h2
      | succ f2 =>
        rw [replaceAllCIAux, replaceAllCIAux]
        by_cases hc : q ≠ [] ∧ prefixCI q (c :: t) = true
        · rw [if_pos hc, if_pos hc]
          have hq : 1 ≤ q.length := by
            cases hqq : q with
            | nil => exact absurd hqq hc.1
            | cons a as => simp
          simp only [List.length_cons] at h1 h2
          have hd1 : ((c :: t).drop q.length).length ≤ f1 := by
            simp only [List.length_drop, List.length_cons]
            omega
          have hd2 : ((c :: t).drop q.length).length ≤ f2 := by
            simp only [List.length_drop, List.length_cons]
            omega
          rw [ih ((c :: t).drop q.length) f2 hd1 hd2]
        · rw [if_neg hc, if_neg hc]
          simp only [List.length_cons] at h1 h2
          rw [ih t f2 (by omega) (by omega)]

theorem replaceAllCI_cons (q : List Char) (c : Char) (t : List Char) :
    replaceAllCI q (c :: t) =
      if q ≠ [] ∧ prefixCI q (c :: t) = true then
        markOpen ++ (c :: t).take q.length ++ markClose ++
          replaceAllCI q ((c :: t).drop q.length)
      else c :: replaceAllCI q t := by
  unfold replaceAllCI
  rw [show (c :: t).length = t.length + 1 from rfl, replaceAllCIAux]
  by_cases hc : q ≠ [] ∧ prefixCI q (c :: t) = true
  · rw [if_pos hc, if_pos hc]
    have hq : 1 ≤ q.length := by
      cases hqq : q with
      | nil => exact absurd hqq hc.1
      | cons a as => simp
    rw [replaceAllCIAux_congr q t.length ((c :: t).drop q.length)
      ((c :: t).drop q.length).length
      (by simp only [List.length_drop, List.length_cons]; omega) (le_refl _)]
  · rw [if_neg hc, if_neg hc]

theorem removeAllAux_congr (pat : List Char) :
    ∀ (f1 : Nat) (l : List Char) (f2 : Nat),
      l.length ≤ f1 → l.length ≤ f2 →
      removeAllAux pat f1 l = removeAllAux pat f2 l := by
  intro f1
  induction f1 with
  | zero =>
    intro l f2 h1 h2
    have hl : l = [] := List.eq_nil_of_length_eq_zero (Nat.le_zero.mp h1)
    subst hl
    cases f2 <;> rfl
  | succ f1 ih =>
    intro l f2 h1 h2
    cases l with
    | nil => cases f2 <;> rfl
    | cons c t =>
      cases f2 with
      | zero => simp at h2
      | succ f2 =>
        rw [removeAllAux, removeAllAux]
        by_cases hc : pat ≠ [] ∧ hasPrefixCS pat (c :: t) = true
        · rw [if_pos hc, if_pos hc]
          have hq : 1 ≤ pat.length := by
            cases hqq : pat with
            | nil => exact absurd hqq hc.1
            | cons a as => simp
          simp only [List.length_cons] at h1 h2
          have hd1 : ((c :: t).drop pat.length).length ≤ f1 := by
            simp only [List.length_drop, List.length_cons]
            omega
          have hd2 : ((c :: t).drop pat.length).length ≤ f2 := by
            simp only [List.length_drop, List.length_cons]
            omega
          rw [ih ((c :: t).drop pat.length) f2 hd1 hd2]
        · rw [if_neg hc, if_neg hc]
          simp only [List.length_cons] at h1 h2
          rw [ih t f2 (by omega) (by omega)]

theorem removeAll_cons (pat : List Char) (c : Char) (t : List Char) :
    removeAll pat (c :: t) =
      if pat ≠ [] ∧ hasPrefixCS pat (c :: t) = true then
        removeAll pat ((c :: t).drop pat.length)
      else c :: removeAll pat t := by
  unfold removeAll
  rw [show (c :: t).length = t.length + 1 from rfl, removeAllAux]
  by_cases hc : pat ≠ [] ∧ hasPrefixCS pat (c :: t) = true
  · rw [if_pos hc, if_pos hc]
    have hq : 1 ≤ pat.length := by
      cases hqq : pat with
      | nil => exact absurd hqq hc.1
      | cons a as => simp
    rw [removeAllAux_congr pat t.length ((c :: t).drop pat.length)
      ((c :: t).drop pat.length).length
      (by simp only [List.length_drop, List.length_cons]; omega) (le_refl _)]
  · rw [if_neg hc, if_neg hc]

theorem replaceAllCI_no_occur {q : List Char} :
    ∀ {l : List Char}, occursCI q l = false → replaceAllCI q l = l := by
  intro l
  induction l with
  | nil =>
    intro _
    rfl
  | cons c t ih =>
    intro h
    rw [occursCI, Bool.or_eq_false_iff] at h
    rw [replaceAllCI_cons,
      if_neg (fun hc => absurd hc.2 (by simp [h.1])), ih h.2]

/-- Counterexample to C9 as stated: for the query "b", which does not match
    the literal highlight-marker syntax (it occurs in neither marker),
    applying `highlightAll` twice re-wraps the already wrapped match and so
    differs from a single pass. -/
theorem highlightAll_not_idempotent :
    (occursCI "b".toList markOpen = false ∧
     occursCI "b".toList markClose = false) ∧
    highlightAll (highlightAll "b".toList "b".toList) "b".toList ≠
      highlightAll "b".toList "b".toList := by
  decide

/-- Claim C9 (amended): `highlightAll` is idempotent exactly on inputs the
    first pass leaves unchanged: when the query does not occur
    (case-insensitively) in the text, a second application returns the
    single-pass output unchanged.  When the query does occur, the second
    pass wraps the match text inside the inserted markers again, so
    idempotence fails even for queries that do not match the marker
    syntax. -/
theorem highlightAll_idem_of_no_occur (text q : List Char)
    (h : occursCI q text = false) :
    highlightAll (highlightAll text q) q = highlightAll text q := by
  have h1 : highlightAll text q = text := by
    unfold highlightAll
    split_ifs with hc
    · rfl
    · exact replaceAllCI_no_occur h
  rw [h1, h1]

/-- Witness for C9 (amended) at a concrete non-matching input. -/
theorem highlightAll_idem_witness :
    highlightAll (highlightAll "xyz".toList "q".toList) "q".toList =
      highlightAll "xyz".toList "q".toList :=
  highlightAll_idem_of_no_occur _ _ (by decide)

end SearchService

namespace SearchService

/-! ### Claim C10: stripping the markers recovers the text

The highlighted output of `highlightByType` is decomposed as an alternation
of plain chunks and wrapped match chunks (`glue`); deleting the markers is
proved to recover exactly the concatenation of the chunks (`plainGlue`),
which is the original text. -/

theorem includesList_false_of_part {pat v w : List Char}
    (hw : includesList pat w = false) (hv : v <:+: w) :
    includesList pat v = false := by
  cases h : includesList pat v with
  | false => rfl
  | true =>
    exact absurd (includesList_iff.mpr ((includesList_iff.mp h).trans hv))
      (by simp [hw])

theorem hasPrefixCS_false_of_suffix {pat w y : List Char}
    (hw : includesList pat w = false) (hy : y <:+ w) :
    hasPrefixCS pat y = false := by
  cases h : hasPrefixCS pat y with
  | false => rfl
  | true =>
    exact absurd (includesList_iff.mpr (List.IsInfix.trans
      (List.IsPrefix.isInfix (hasPrefixCS_iff.mp h))
      (List.IsSuffix.isInfix hy))) (by simp [hw])

theorem hasPrefixCS_append_split {p a b : List Char}
    (h : hasPrefixCS p (a ++ b) = true) :
    (p.length ≤ a.length ∧ hasPrefixCS p a = true) ∨
    (a.length < p.length ∧ p.take a.length = a ∧
      hasPrefixCS (p.drop a.length) b = true) := by
  induction a generalizing p with
  | nil =>
    cases p with
    | nil => exact Or.inl ⟨le_refl _, rfl⟩
    | cons pc pt =>
      exact Or.inr ⟨by simp, rfl, by simpa using h⟩
  | cons x a2 ih =>
    cases p with
    | nil => exact Or.inl ⟨by simp, rfl⟩
    | cons pc pt =>
      rw [List.cons_append, hasPrefixCS, Bool.and_eq_true, decide_eq_true_eq]
        at h
      obtain ⟨rfl, h2⟩ := h
      rcases ih h2 with ⟨l1, l2⟩ | ⟨r1, r2, r3⟩
      · exact Or.inl ⟨by simpa using Nat.succ_le_succ l1,
          by simp [hasPrefixCS, l2]⟩
      · refine Or.inr ⟨by simpa using Nat.succ_lt_succ r1, ?_, ?_⟩
        · simp only [List.length_cons, List.take_succ_cons, r2]
        · simpa using r3

theorem hasPrefixCS_head {p r : List Char} (h : hasPrefixCS p r = true)
    (hp : p ≠ []) : r ≠ [] ∧ p.headD ' ' = r.headD ' ' := by
  cases p with
  | nil => exact absurd rfl hp
  | cons pc pt =>
    cases r with
    | nil => simp [hasPrefixCS] at h
    | cons rc rt =>
      rw [hasPrefixCS, Bool.and_eq_true, decide_eq_true_eq] at h
      exact ⟨by simp, by simp [h.1]⟩

theorem headD_drop : ∀ (l : List Char) (n : Nat),
    (l.drop n).headD ' ' = l.getD n ' '
  | [], 0 => rfl
  | _ :: _, 0 => rfl
  | [], _ + 1 => rfl
  | c :: t, n + 1 => by
    rw [show (c :: t).drop (n + 1) = t.drop n from rfl]
    rw [show (c :: t).getD (n + 1) ' ' = t.getD n ' ' from rfl]
    exact headD_drop t n

theorem headD_append_of_ne_nil {a : List Char} (b : List Char) (h : a ≠ []) :
    (a ++ b).headD ' ' = a.headD ' ' := by
  cases a with
  | nil => exact absurd rfl h
  | cons c t => rfl

theorem markOpen_ne_nil : markOpen ≠ [] := by decide

theorem markClose_ne_nil : markClose ≠ [] := by decide

theorem markOpen_headD : markOpen.headD ' ' = '<' := by decide

theorem markClose_headD : markClose.headD ' ' = '<' := by decide

theorem markOpen_inner : ∀ d, d < markOpen.length → 0 < d →
    markOpen.getD d ' ' ≠ markOpen.headD ' ' := by decide

theorem markClose_inner : ∀ d, d < markClose.length → 0 < d →
    markClose.getD d ' ' ≠ markClose.headD ' ' := by decide

/-- A scan position strictly inside a pattern-free chunk, followed by
    material whose first character is the pattern head, can never start an
    occurrence of an unbordered pattern (the pattern head occurs only at
    its position 0). -/
theorem noMidfire {pat y rest : List Char} (hpat : pat ≠ [])
    (hhd : rest.headD ' ' = pat.headD ' ')
    (hinner : ∀ d, d < pat.length → 0 < d → pat.getD d ' ' ≠ pat.headD ' ')
    (hy : hasPrefixCS pat y = false) (hyne : y ≠ []) :
    hasPrefixCS pat (y ++ rest) = false := by
  cases hres : hasPrefixCS pat (y ++ rest) with
  | false => rfl
  | true =>
    exfalso
    rcases hasPrefixCS_append_split hres with ⟨_, h2⟩ | ⟨h1, _, h3⟩
    · rw [hy] at h2
      cases h2
    · have hylen : 0 < y.length := List.length_pos.mpr hyne
      have hdne : pat.drop y.length ≠ [] := by
        intro hd
        have := congrArg List.length hd
        simp only [List.length_drop, List.length_nil] at this
        omega
      have hh := hasPrefixCS_head h3 hdne
      have : pat.getD y.length ' ' = pat.headD ' ' := by
        rw [← headD_drop, hh.2]
        cases rest with
        | nil => exact absurd rfl (by
            intro hcon
            rcases hasPrefixCS_head h3 hdne with ⟨hr, _⟩
            exact hr hcon)
        | cons rc rt => exact hhd
      exact hinner y.length h1 hylen this

theorem hasPrefixCS_append_self : ∀ (p r : List Char),
    hasPrefixCS p (p ++ r) = true := by
  intro p r
  induction p with
  | nil => rfl
  | cons c t ih => simp [hasPrefixCS, ih]

theorem removeAll_head {pat : List Char} (r : List Char) (hpat : pat ≠ []) :
    removeAll pat (pat ++ r) = removeAll pat r := by
  cases pat with
  | nil => exact absurd rfl hpat
  | cons c t =>
    rw [List.cons_append, removeAll_cons]
    have hpre : hasPrefixCS (c :: t) (c :: (t ++ r)) = true := by
      rw [← List.cons_append]
      exact hasPrefixCS_append_self (c :: t) r
    rw [if_pos ⟨hpat, hpre⟩, ← List.cons_append, List.drop_left]

theorem removeAll_no_occur {pat : List Char} :
    ∀ {l : List Char}, includesList pat l = false → removeAll pat l = l := by
  intro l
  induction l with
  | nil => intro _; rfl
  | cons c t ih =>
    intro h
    rw [includesList, Bool.or_eq_false_iff] at h
    rw [removeAll_cons, if_neg (fun hc => absurd hc.2 (by simp [h.1])), ih h.2]

theorem removeAll_chunk {pat : List Char} :
    ∀ (x r : List Char),
      (∀ y, y <:+ x → y ≠ [] → hasPrefixCS pat (y ++ r) = false) →
      removeAll pat (x ++ r) = x ++ removeAll pat r := by
  intro x
  induction x with
  | nil => intro r _; simp
  | cons c x2 ih =>
    intro r hsafe
    have hx : hasPrefixCS pat (c :: (x2 ++ r)) = false :=
      hsafe (c :: x2) (List.suffix_refl _) (by simp)
    rw [List.cons_append, removeAll_cons]
    rw [if_neg (fun hc => absurd hc.2 (by simp [hx]))]
    rw [ih r (fun y hy hyne => hsafe y (hy.trans (List.suffix_cons c x2)) hyne)]
    rfl

end SearchService

namespace SearchService

theorem safe_open_chunk {chunk rest : List Char}
    (hchunk : includesList markOpen chunk = false)
    (hrest : rest.headD ' ' = '<') :
    ∀ y, y <:+ chunk → y ≠ [] → hasPrefixCS markOpen (y ++ rest) = false :=
  fun y hy hyne =>
    noMidfire markOpen_ne_nil (by rw [hrest, markOpen_headD]) markOpen_inner
      (hasPrefixCS_false_of_suffix hchunk hy) hyne

theorem safe_close_chunk {chunk rest : List Char}
    (hchunk : includesList markClose chunk = false)
    (hrest : rest.headD ' ' = '<') :
    ∀ y, y <:+ chunk → y ≠ [] → hasPrefixCS markClose (y ++ rest) = false :=
  fun y hy hyne =>
    noMidfire markClose_ne_nil (by rw [hrest, markClose_headD]) markClose_inner
      (hasPrefixCS_false_of_suffix hchunk hy) hyne

theorem markClose_tails_fact :
    ∀ y, y <:+ markClose → y ≠ [] → markOpen.take y.length ≠ y := by
  intro y hy hne
  have hmem : y ∈ markClose.tails := (List.mem_tails y markClose).mpr hy
  have hb : markClose.tails.all
      (fun z => z.isEmpty || decide (markOpen.take z.length ≠ z)) = true := by
    decide
  have h2 := List.all_eq_true.mp hb y hmem
  rw [Bool.or_eq_true] at h2
  rcases h2 with h2 | h2
  · exact absurd (List.isEmpty_iff.mp h2) hne
  · exact of_decide_eq_true h2

theorem safe_open_after_close (G : List Char) :
    ∀ y, y <:+ markClose → y ≠ [] → hasPrefixCS markOpen (y ++ G) = false := by
  intro y hy hne
  cases hres : hasPrefixCS markOpen (y ++ G) with
  | false => rfl
  | true =>
    exfalso
    rcases hasPrefixCS_append_split hres with ⟨h1, _⟩ | ⟨_, h2, _⟩
    · have hylen : y.length ≤ markClose.length := hy.length_le
      have e1 : markOpen.length = 31 := by decide
      have e2 : markClose.length = 7 := by decide
      omega
    · exact markClose_tails_fact y hy hne h2

/-- First removal pass: deleting every occurrence of the opening marker from
    the glued highlight output deletes exactly the inserted opening
    markers. -/
theorem removeAll_open_glue :
    ∀ (ps : List (List Char × List Char)) (t : List Char),
      (∀ p ∈ ps, includesList markOpen p.1 = false ∧
        includesList markOpen p.2 = false) →
      includesList markOpen t = false →
      removeAll markOpen (glue ps t) = glueNoOpen ps t := by
  intro ps
  induction ps with
  | nil =>
    intro t _ ht
    exact removeAll_no_occur ht
  | cons p ps ih =>
    obtain ⟨x, m⟩ := p
    intro t hps ht
    have hx := (hps (x, m) (List.mem_cons_self _ _)).1
    have hm := (hps (x, m) (List.mem_cons_self _ _)).2
    have hshape : glue ((x, m) :: ps) t =
        x ++ (markOpen ++ (m ++ (markClose ++ glue ps t))) := by
      simp [glue, List.append_assoc]
    rw [hshape]
    rw [removeAll_chunk x _ (safe_open_chunk hx
      (by rw [headD_append_of_ne_nil _ markOpen_ne_nil, markOpen_headD]))]
    rw [removeAll_head _ markOpen_ne_nil]
    rw [removeAll_chunk m _ (safe_open_chunk hm
      (by rw [headD_append_of_ne_nil _ markClose_ne_nil, markClose_headD]))]
    rw [removeAll_chunk markClose _ (safe_open_after_close _)]
    rw [ih t (fun q hq => hps q (List.mem_cons_of_mem _ hq)) ht]
    simp [glueNoOpen, List.append_assoc]

/-- Second removal pass: deleting every occurrence of the closing marker
    from the output of the first pass recovers the plain chunks. -/
theorem removeAll_close_glueNoOpen :
    ∀ (ps : List (List Char × List Char)) (t : List Char),
      (∀ p ∈ ps, includesList markClose (p.1 ++ p.2) = false) →
      includesList markClose t = false →
      removeAll markClose (glueNoOpen ps t) = plainGlue ps t := by
  intro ps
  induction ps with
  | nil =>
    intro t _ ht
    exact removeAll_no_occur ht
  | cons p ps ih =>
    obtain ⟨x, m⟩ := p
    intro t hps ht
    have hxm := hps (x, m) (List.mem_cons_self _ _)
    have hshape : glueNoOpen ((x, m) :: ps) t =
        (x ++ m) ++ (markClose ++ glueNoOpen ps t) := by
      simp [glueNoOpen, List.append_assoc]
    rw [hshape]
    rw [removeAll_chunk (x ++ m) _ (safe_close_chunk hxm
      (by rw [headD_append_of_ne_nil _ markClose_ne_nil, markClose_headD]))]
    rw [removeAll_head _ markClose_ne_nil]
    rw [ih t (fun q hq => hps q (List.mem_cons_of_mem _ hq)) ht]
    simp [plainGlue, List.append_assoc]

/-- Every chunk of a decomposition of a marker-free text is itself
    marker-free. -/
theorem pieces_free {pat : List Char} :
    ∀ (ps : List (List Char × List Char)) (t l : List Char),
      plainGlue ps t = l → includesList pat l = false →
      (∀ p ∈ ps, includesList pat p.1 = false ∧ includesList pat p.2 = false ∧
        includesList pat (p.1 ++ p.2) = false) ∧
      includesList pat t = false := by
  intro ps
  induction ps with
  | nil =>
    intro t l h hl
    refine ⟨fun p hp => absurd hp (by simp), ?_⟩
    rw [show t = l from h]
    exact hl
  | cons p ps ih =>
    intro t l h hl
    obtain ⟨x, m⟩ := p
    have hshape : (x ++ m) ++ plainGlue ps t = l := by
      rw [← h]
      simp [plainGlue, List.append_assoc]
    have hxm_inf : (x ++ m) <:+: l := ⟨[], plainGlue ps t, by simpa using hshape⟩
    have hrest_inf : plainGlue ps t <:+: l :=
      ⟨x ++ m, [], by simpa using hshape⟩
    have hxm := includesList_false_of_part hl hxm_inf
    have hx : includesList pat x = false :=
      includesList_false_of_part hxm ⟨[], m, by simp⟩
    have hm : includesList pat m = false :=
      includesList_false_of_part hxm ⟨x, [], by simp⟩
    have hrest := includesList_false_of_part hl hrest_inf
    have ihres := ih t (plainGlue ps t) rfl hrest
    refine ⟨?_, ihres.2⟩
    intro q hq
    rcases List.mem_cons.mp hq with rfl | hq2
    · exact ⟨hx, hm, hxm⟩
    · exact ihres.1 q hq2

/-- Stripping both markers from a glued decomposition of a marker-free text
    recovers the text. -/
theorem strip_glue {ps : List (List Char × List Char)} {tl text : List Char}
    (h2 : plainGlue ps tl = text)
    (hopen : includesList markOpen text = false)
    (hclose : includesList markClose text = false) :
    removeAll markClose (removeAll markOpen (glue ps tl)) = text := by
  have ho := pieces_free ps tl text h2 hopen
  have hc := pieces_free ps tl text h2 hclose
  rw [removeAll_open_glue ps tl
    (fun p hp => ⟨(ho.1 p hp).1, (ho.1 p hp).2.1⟩) ho.2]
  rw [removeAll_close_glueNoOpen ps tl (fun p hp => (hc.1 p hp).2.2) hc.2]
  exact h2

end SearchService

namespace SearchService

/-! Decomposition of the two highlight paths into glued chunks. -/

theorem replaceAllCI_decomp {q : List Char} (hq : q ≠ []) :
    ∀ (l : List Char),
      ∃ ps tl, replaceAllCI q l = glue ps tl ∧ plainGlue ps tl = l := by
  have main : ∀ (n : Nat) (l : List Char), l.length ≤ n →
      ∃ ps tl, replaceAllCI q l = glue ps tl ∧ plainGlue ps tl = l := by
    intro n
    induction n with
    | zero =>
      intro l h
      have hl : l = [] := List.eq_nil_of_length_eq_zero (Nat.le_zero.mp h)
      subst hl
      exact ⟨[], [], rfl, rfl⟩
    | succ n ih =>
      intro l hlen
      cases l with
      | nil => exact ⟨[], [], rfl, rfl⟩
      | cons c t =>
        by_cases hp : prefixCI q (c :: t) = true
        · have hq1 : 1 ≤ q.length := by
            cases hqq : q with
            | nil => exact absurd hqq hq
            | cons a as => simp
          have hdl : ((c :: t).drop q.length).length ≤ n := by
            simp only [List.length_drop, List.length_cons]
            simp only [List.length_cons] at hlen
            omega
          obtain ⟨ps, tl, e1, e2⟩ := ih ((c :: t).drop q.length) hdl
          refine ⟨([], (c :: t).take q.length) :: ps, tl, ?_, ?_⟩
          · rw [replaceAllCI_cons, if_pos ⟨hq, hp⟩, e1]
            rfl
          · show (c :: t).take q.length ++ plainGlue ps tl = c :: t
            rw [e2]
            exact List.take_append_drop _ _
        · obtain ⟨ps, tl, e1, e2⟩ := ih t
            (by simp only [List.length_cons] at hlen; omega)
          cases ps with
          | nil =>
            refine ⟨[], c :: tl, ?_, ?_⟩
            · rw [replaceAllCI_cons, if_neg (fun hc => hp hc.2), e1]
              rfl
            · exact congrArg (fun z => c :: z) e2
          | cons pr ps2 =>
            obtain ⟨x, m⟩ := pr
            refine ⟨(c :: x, m) :: ps2, tl, ?_, ?_⟩
            · rw [replaceAllCI_cons, if_neg (fun hc => hp hc.2), e1]
              rfl
            · exact congrArg (fun z => c :: z) e2
  intro l
  exact main l.length l (le_refl _)

theorem sliceL_append_drop (l : List Char) {a b : Nat} (h : a ≤ b) :
    sliceL l a b ++ l.drop b = l.drop a := by
  unfold sliceL
  rw [List.drop_take]
  have hdd : l.drop b = (l.drop a).drop (b - a) := by
    rw [List.drop_drop]
    congr 1
    omega
  rw [hdd]
  exact List.take_append_drop _ _

theorem SpChain_mono : ∀ {spans : List SSpan} {i j : Nat},
    SpChain j spans → i ≤ j → SpChain i spans := by
  intro spans
  cases spans with
  | nil => intro i j _ _; trivial
  | cons s rest =>
    intro i j h hij
    exact ⟨le_trans hij h.1, h.2⟩

theorem RChain_mono : ∀ {rs : List HRange} {i j : Nat},
    RChain j rs → i ≤ j → RChain i rs := by
  intro rs
  cases rs with
  | nil => intro i j _ _; trivial
  | cons r rest =>
    intro i j h hij
    exact ⟨le_trans hij h.1, h.2.1, h.2.2⟩

theorem sentencesAux_chain : ∀ (fuel : Nat) (l : List Char) (i : Nat),
    SpChain i (sentencesAux fuel l i) := by
  intro fuel
  induction fuel with
  | zero =>
    intro l i
    trivial
  | succ fuel ih =>
    intro l i
    cases l with
    | nil => trivial
    | cons c t =>
      rw [sentencesAux]
      cases hm : sentMatchHere (c :: t) with
      | none => exact SpChain_mono (ih t (i + 1)) (by omega)
      | some pr =>
        obtain ⟨slen, flen⟩ := pr
        have hb := sentMatchHere_bounds hm
        have hlen : ((c :: t).take slen).length ≤ flen := by
          simp only [List.length_take, List.length_cons]
          omega
        refine ⟨le_refl i, SpChain_mono (ih ((c :: t).drop flen) (i + flen)) ?_⟩
        show i + ((c :: t).take slen).length ≤ i + flen
        omega

theorem filter_chain (p : SSpan → Bool) :
    ∀ {spans : List SSpan} {i : Nat},
      SpChain i spans → SpChain i (spans.filter p) := by
  intro spans
  induction spans with
  | nil =>
    intro i _
    trivial
  | cons s rest ih =>
    intro i h
    obtain ⟨h1, h2⟩ := h
    by_cases hp : p s = true
    · rw [List.filter_cons_of_pos hp]
      exact ⟨h1, ih h2⟩
    · rw [List.filter_cons_of_neg (by simpa using hp)]
      exact ih (SpChain_mono h2 (le_trans h1 (Nat.le_add_right _ _)))

theorem splitIntoSentences_chain (text : List Char) :
    SpChain 0 (splitIntoSentences text) := by
  unfold splitIntoSentences
  split
  · exact ⟨Nat.zero_le _, trivial⟩
  · unfold sentenceSpans
    exact filter_chain _ (sentencesAux_chain text.length text 0)

theorem sentenceRanges_chain (lq : List Char) (t : MatchType) :
    ∀ (spans : List SSpan) (i : Nat), SpChain i spans →
      RChain i (sentenceRanges lq t spans) := by
  intro spans
  induction spans with
  | nil =>
    intro i _
    cases t <;> trivial
  | cons s rest ih =>
    intro i h
    obtain ⟨h1, h2⟩ := h
    have hnext := ih (s.start + s.text.length) h2
    have hstep : i ≤ s.start + s.text.length :=
      le_trans h1 (Nat.le_add_right _ _)
    cases t with
    | contains =>
      rw [sentenceRanges]
      exact RChain_mono hnext hstep
    | startsWith =>
      rw [sentenceRanges]
      by_cases hp : hasPrefixCS lq (normalize (ltrimPunct s.text)) = true
      · rw [if_pos hp]
        have hlq : lq.length ≤ (ltrimPunct s.text).length := by
          have := hasPrefixCS_length hp
          simpa [normalize_length] using this
        have hlt := ltrimPunct_length_le s.text
        refine ⟨?_, ?_, RChain_mono hnext ?_⟩
        · show i ≤ s.start + (s.text.length - (ltrimPunct s.text).length)
          omega
        · show s.start + (s.text.length - (ltrimPunct s.text).length) ≤
            s.start + (s.text.length - (ltrimPunct s.text).length) + lq.length
          omega
        · show s.start + (s.text.length - (ltrimPunct s.text).length) +
            lq.length ≤ s.start + s.text.length
          omega
      · rw [if_neg hp]
        exact RChain_mono hnext hstep
    | endsWith =>
      rw [sentenceRanges]
      by_cases hp : endsWithList lq (normalize (rtrimPunct s.text)) = true
      · rw [if_pos hp]
        have hlq : lq.length ≤ (rtrimPunct s.text).length := by
          have := endsWithList_length hp
          simpa [normalize_length] using this
        have hrt := rtrimPunct_length_le s.text
        refine ⟨?_, ?_, RChain_mono hnext ?_⟩
        · show i ≤ s.start + (rtrimPunct s.text).length - lq.length
          omega
        · show s.start + (rtrimPunct s.text).length - lq.length ≤
            s.start + (rtrimPunct s.text).length - lq.length + lq.length
          omega
        · show s.start + (rtrimPunct s.text).length - lq.length + lq.length ≤
            s.start + s.text.length
          omega
      · rw [if_neg hp]
        exact RChain_mono hnext hstep

theorem RChain_le_start : ∀ {rs : List HRange} {i : Nat},
    RChain i rs → ∀ r ∈ rs, i ≤ r.start := by
  intro rs
  induction rs with
  | nil =>
    intro i _ r hr
    exact absurd hr (by simp)
  | cons r rest ih =>
    intro i h q hq
    rcases List.mem_cons.mp hq with rfl | hq2
    · exact h.1
    · exact le_trans (le_trans h.1 h.2.1) (ih h.2.2 q hq2)

theorem RChain_sorted : ∀ {rs : List HRange} {i : Nat},
    RChain i rs → List.Sorted rangeLE rs := by
  intro rs
  induction rs with
  | nil =>
    intro i _
    exact List.sorted_nil
  | cons r rest ih =>
    intro i h
    rw [List.sorted_cons]
    exact ⟨fun b hb => le_trans h.2.1 (RChain_le_start h.2.2 b hb), ih h.2.2⟩

theorem emitRanges_decomp (text : List Char) :
    ∀ (rs : List HRange) (last : Nat), RChain last rs →
      ∃ ps tl, emitRanges text last rs = glue ps tl ∧
        plainGlue ps tl = text.drop last := by
  intro rs
  induction rs with
  | nil =>
    intro last _
    exact ⟨[], text.drop last, rfl, rfl⟩
  | cons r rest ih =>
    intro last hch
    obtain ⟨h1, h2, h3⟩ := hch
    obtain ⟨ps, tl, e1, e2⟩ := ih r.stop h3
    refine ⟨(sliceL text last r.start, sliceL text r.start r.stop) :: ps, tl,
      ?_, ?_⟩
    · rw [emitRanges, e1]
      rfl
    · show (sliceL text last r.start ++ sliceL text r.start r.stop) ++
        plainGlue ps tl = text.drop last
      rw [List.append_assoc, e2, sliceL_append_drop text h2,
        sliceL_append_drop text h1]

end SearchService

namespace SearchService

/-- Claim C10: for every text that does not contain the highlight marker
    strings, every non-empty query and every mode, deleting all occurrences
    of the opening and closing markers from the output of `highlightByType`
    yields exactly the original text — highlighting never drops, duplicates
    or reorders a character of the field. -/
theorem highlight_strip_roundtrip (text query : List Char) (t : MatchType)
    (hopen : includesList markOpen text = false)
    (hclose : includesList markClose text = false)
    (hq : query ≠ []) :
    stripMarks (highlightByType text query t) = text := by
  unfold stripMarks
  have hstripid : removeAll markClose (removeAll markOpen text) = text := by
    rw [removeAll_no_occur hopen, removeAll_no_occur hclose]
  by_cases htext : text.isEmpty = true
  · rw [highlightByType.eq_def, if_pos (by simp [htext])]
    exact hstripid
  · have hT : text.isEmpty = false := by simpa using htext
    have hQ : query.isEmpty = false := by
      cases query with
      | nil => exact absurd rfl hq
      | cons a as => rfl
    have hguard : ¬((text.isEmpty || query.isEmpty) = true) := by
      simp [hT, hQ]
    cases t with
    | contains =>
      rw [highlightByType.eq_def, if_neg hguard]
      show removeAll markClose (removeAll markOpen
        (highlightAll text query)) = text
      rw [highlightAll, if_neg hguard]
      obtain ⟨ps, tl, e1, e2⟩ := replaceAllCI_decomp hq text
      rw [e1]
      exact strip_glue e2 hopen hclose
    | startsWith =>
      rw [highlightByType.eq_def, if_neg hguard]
      show removeAll markClose (removeAll markOpen (highlightRanges text
        (sentenceRanges (normalize query) .startsWith
          (splitIntoSentences text)))) = text
      have hch : RChain 0 (sentenceRanges (normalize query) .startsWith
          (splitIntoSentences text)) :=
        sentenceRanges_chain _ _ _ 0 (splitIntoSentences_chain text)
      rw [highlightRanges]
      by_cases hrs : (sentenceRanges (normalize query) .startsWith
          (splitIntoSentences text)).isEmpty = true
      · rw [if_pos hrs]
        exact hstripid
      · rw [if_neg hrs]
        rw [List.Sorted.insertionSort_eq (RChain_sorted hch)]
        obtain ⟨ps, tl, e1, e2⟩ := emitRanges_decomp text _ 0 hch
        rw [e1]
        refine strip_glue ?_ hopen hclose
        rw [e2]
        rfl
    | endsWith =>
      rw [highlightByType.eq_def, if_neg hguard]
      show removeAll markClose (removeAll markOpen (highlightRanges text
        (sentenceRanges (normalize query) .endsWith
          (splitIntoSentences text)))) = text
      have hch : RChain 0 (sentenceRanges (normalize query) .endsWith
          (splitIntoSentences text)) :=
        sentenceRanges_chain _ _ _ 0 (splitIntoSentences_chain text)
      rw [highlightRanges]
      by_cases hrs : (sentenceRanges (normalize query) .endsWith
          (splitIntoSentences text)).isEmpty = true
      · rw [if_pos hrs]
        exact hstripid
      · rw [if_neg hrs]
        rw [List.Sorted.insertionSort_eq (RChain_sorted hch)]
        obtain ⟨ps, tl, e1, e2⟩ := emitRanges_decomp text _ 0 hch
        rw [e1]
        refine strip_glue ?_ hopen hclose
        rw [e2]
        rfl

/-- Witness for C10 at a concrete anchored-mode input with two wrapped
    occurrences. -/
theorem highlight_strip_roundtrip_witness :
    stripMarks (highlightByType "One two. Three two. x".toList "two".toList
      .endsWith) = "One two. Three two. x".toList :=
  highlight_strip_roundtrip _ _ _ (by decide) (by decide) (by decide)

end SearchService
